import Mathlib

/-!
Verification development for the name-normalization and anomaly-detection
pipeline of `paranames` (module `paranames/util/script.py`).

Python strings are modelled as `List Char`; Python `None`-able values as
`Option`; a Python exception escaping a function as an `Option`/`none`
result.  Machine floats appear only as `np.inf` (modelled as `none` in an
`Option Nat` distance accumulator, with an explicit comparison function) and
as the mean in `CorpusStatistics` (modelled as `ℚ`; the numerator and
denominator are integers, so no rounding questions arise in the claims).
-/

/-- Characters stripped by Python `str.strip()` (ASCII whitespace). -/
def pyIsSpace (c : Char) : Bool :=
  c == ' ' || c == '\t' || c == '\n' || c == '\r' || c == '\x0b' || c == '\x0c'

/-- Drop trailing characters satisfying `p` (right-hand half of `str.strip`). -/
def pyDropTrailing (p : Char → Bool) (l : List Char) : List Char :=
  l.foldr (fun c acc => if acc.isEmpty && p c then [] else c :: acc) []

/-- Python `str.strip(chars)`: drop leading and trailing characters satisfying `p`. -/
def pyStripP (p : Char → Bool) (l : List Char) : List Char :=
  pyDropTrailing p (l.dropWhile p)

/-- Python `str.strip()` (no argument: whitespace). -/
def pyStrip (l : List Char) : List Char := pyStripP pyIsSpace l

/-- Python `str.strip(",")`. -/
def pyStripComma (l : List Char) : List Char := pyStripP (fun c => c == ',') l

/-- Python `str.replace(",", "")`. -/
def pyRemoveComma (l : List Char) : List Char := l.filter (fun c => !(c == ','))

/-- Python `str.split(sep)` with an explicit one-character separator:
splits at every occurrence, keeping empty pieces (`"a--b".split("-") = ["a","","b"]`,
`"".split("-") = [""]`). -/
def pySplitSep (sep : Char) : List Char → List (List Char)
  | [] => [[]]
  | c :: cs =>
    if c == sep then [] :: pySplitSep sep cs
    else
      match pySplitSep sep cs with
      | t :: ts => (c :: t) :: ts
      | [] => [[c]]

/-- Helper for `pySplitWs`: `cur` is the current token accumulated in reverse. -/
def pySplitWsAux (cur : List Char) : List Char → List (List Char)
  | [] => if cur.isEmpty then [] else [cur.reverse]
  | c :: cs =>
    if pyIsSpace c then
      if cur.isEmpty then pySplitWsAux [] cs else cur.reverse :: pySplitWsAux [] cs
    else pySplitWsAux (c :: cur) cs

/-- Python `str.split()` with no argument: split on whitespace runs, no empty tokens. -/
def pySplitWs (l : List Char) : List (List Char) := pySplitWsAux [] l

/-- Digit run of a Python integer literal: digits with single separating
underscores allowed between digits (`int("1_0") == 10`), nothing else. -/
def pyDigitsAux (acc : ℕ) : List Char → Option ℕ
  | [] => some acc
  | '_' :: d :: rest =>
    if d.isDigit then pyDigitsAux (acc * 10 + (d.toNat - 48)) rest else none
  | '_' :: [] => none
  | d :: rest =>
    if d.isDigit then pyDigitsAux (acc * 10 + (d.toNat - 48)) rest else none

/-- Nonempty digit run (first character must be a digit). -/
def pyDigits : List Char → Option ℕ
  | [] => none
  | c :: cs => if c.isDigit then pyDigitsAux (c.toNat - 48) cs else none

/-- Python `int(s)`: optional surrounding whitespace, optional sign, digit run.
`none` models the `ValueError` raised on anything else. -/
def pyInt (s : List Char) : Option ℤ :=
  match pyStrip s with
  | '-' :: rest => (pyDigits rest).map (fun n => -(n : ℤ))
  | '+' :: rest => (pyDigits rest).map (fun n => (n : ℤ))
  | t => (pyDigits t).map (fun n => (n : ℤ))

/-- `mapOpt f l` is Python's list comprehension `[f x for x in l]` where any
raising element aborts the whole comprehension (`none`). -/
def mapOpt (f : α → Option β) : List α → Option (List β)
  | [] => some []
  | a :: as =>
    match f a, mapOpt f as with
    | some b, some bs => some (b :: bs)
    | _, _ => none

/-!  `Alignment` (source lines 232-271).

`compute_cross_alignments` parses the whitespace-separated tokens of
`alignment_str` with `tuple([int(x) for x in at.split("-")])` — note that the
`int` conversions run inside the `sorted(...)` list comprehension, *outside*
the `try`/`except` in the scan loop — sorts the integer tuples stably by their
first component, and then scans them with `max_tgt_seen`, skipping (via the
`except: continue`) tuples that fail the 2-tuple unpacking. -/

/-- Stable insertion keyed on the first tuple component (`key=lambda t: t[0]`);
tuples produced by the parse are never empty, so `headD 0` is their `t[0]`. -/
def insertByFst (x : List ℤ) : List (List ℤ) → List (List ℤ)
  | [] => [x]
  | y :: ys => if y.headD 0 ≤ x.headD 0 then y :: insertByFst x ys else x :: y :: ys

/-- Python `sorted(l, key=lambda t: t[0])`: stable, ascending. -/
def pySortedByFst (l : List (List ℤ)) : List (List ℤ) :=
  l.foldl (fun acc x => insertByFst x acc) []

/-- The scan loop of `compute_cross_alignments`: state `(n_cross_alignments,
max_tgt_seen)` starting at `(0, 0)`; tuples that are not pairs are skipped by
the `except: continue`. -/
def scanCross (l : List (List ℤ)) : ℤ :=
  (l.foldl
    (fun (acc : ℤ × ℤ) tok =>
      match tok with
      | [_, target] => (if target < acc.2 then acc.1 + 1 else acc.1, max acc.2 target)
      | _ => acc)
    (0, 0)).1

/-- `Alignment.compute_cross_alignments` on the (already stripped, nonempty)
pair string; `none` models the `ValueError` escaping when some token has a
part `int()` cannot parse. -/
def computeCrossAlignments (s : List Char) : Option ℤ :=
  (mapOpt (fun t => mapOpt pyInt (pySplitSep '-' t)) (pySplitSep ' ' s)).map
    (fun parsed => scanCross (pySortedByFst parsed))

/-- The `Alignment` value: stripped raw pair string plus derived count. -/
structure AlignmentV where
  alignmentStr : List Char
  nCross : ℤ
  deriving Repr, DecidableEq

/-- `Alignment(alignment_str=s)`: `__attrs_post_init__` strips `s`, keeps the
default count 0 when the result is empty and otherwise computes the cross
alignments.  `none` models a `ValueError` escaping the constructor. -/
def mkAlignment (s : List Char) : Option AlignmentV :=
  let stripped := pyStrip s
  if stripped.isEmpty then some ⟨stripped, 0⟩
  else (computeCrossAlignments stripped).map (fun n => ⟨stripped, n⟩)

/-- The `n_cross_alignments` of the constructed `Alignment`. -/
def alignmentNCross (s : List Char) : Option ℤ :=
  (mkAlignment s).map (fun a => a.nCross)

/-!  Claim-side definitions for C1, written from the claim's own words:
"(i, j) integer pairs parsed from s and sorted by source index i", and the
scan "starting from max_seen = 0 ... counts the pairs whose target index j is
strictly less than max_seen, updating max_seen to max(max_seen, j)". -/

/-- A single well-formed `"i-j"` token as an integer pair. -/
def parsePair (t : List Char) : Option (ℤ × ℤ) :=
  match mapOpt pyInt (pySplitSep '-' t) with
  | some [i, j] => some (i, j)
  | _ => none

/-- Stable insertion of a pair keyed on the source index. -/
def insertPairByFst (x : ℤ × ℤ) : List (ℤ × ℤ) → List (ℤ × ℤ)
  | [] => [x]
  | y :: ys => if y.1 ≤ x.1 then y :: insertPairByFst x ys else x :: y :: ys

/-- The claim's "sorted by source index i" (stable, ascending). -/
def claimSortPairs (l : List (ℤ × ℤ)) : List (ℤ × ℤ) :=
  l.foldl (fun acc x => insertPairByFst x acc) []

/-- The claim's inversion count over a pair sequence. -/
def claimInversionCount (l : List (ℤ × ℤ)) : ℤ :=
  (l.foldl
    (fun (acc : ℤ × ℤ) p =>
      (if p.2 < acc.2 then acc.1 + 1 else acc.1, max acc.2 p.2))
    (0, 0)).1

/-- Shorthand for writing concrete Python strings. -/
def chars (s : String) : List Char := s.data

/-!  `TransliteratedName` (source lines 141-229).

Fields irrelevant to the claims in force (`unicode_analyzer`, which is only
consulted by histogram properties) are omitted; every field that any claimed
operation reads or writes is present, with the source's defaults.  The
attrs-private `_original_text` is `origText` here. -/

structure TransliteratedName where
  text : List Char
  isUnchanged : Bool
  language : List Char := []
  wikidataId : List Char := chars "Q0"
  conllType : Option (List Char) := some (chars "NONE")
  anomalous : Option Bool := none
  noiseSample : Option Bool := some false
  englishText : Option (List Char) := none
  analyzeUnicode : Bool := true
  alignment : Option AlignmentV := none
  origText : Option (List Char) := none
  deriving Repr, DecidableEq

/-- The `original_text` property: `self._original_text or self.text`
(`None` and the empty string are falsy). -/
def TransliteratedName.originalText (n : TransliteratedName) : List Char :=
  match n.origText with
  | some t => if t.isEmpty then n.text else t
  | none => n.text

/-- The `(text, is_unchanged, original_text)` view used by the mutation-mode
round-trip property. -/
def nameProj (n : TransliteratedName) : List Char × Bool × List Char :=
  (n.text, n.isUnchanged, n.originalText)

/-!  `NameProcessor` (source lines 566-634), parametric in the subclass's
`process` and in `debug_mode`.  Note the source condition
`if self.debug_mode and orig_text != processed_name:` — the `is_unchanged`
update to `False` happens only under `debug_mode`. -/

/-- `NameProcessor._call_inplace`; in-place mutation is modelled by returning
the updated records positionally. -/
def npCallInplace (process : List Char → List Char) (debugMode : Bool)
    (names : List TransliteratedName) : List TransliteratedName :=
  names.map fun name =>
    let origT := name.text
    let processed := process name.text
    let nameIsUnchanged :=
      if debugMode && !(origT == processed) then false else name.isUnchanged
    { name with isUnchanged := nameIsUnchanged, origText := some origT, text := processed }

/-- `NameProcessor._call_immutable`: fresh objects; every constructor keyword
of source lines 619-631 is passed, the rest take their defaults
(`analyze_unicode := true`). -/
def npCallImmutable (process : List Char → List Char) (debugMode : Bool)
    (names : List TransliteratedName) : List TransliteratedName :=
  names.map fun name =>
    let origT := name.text
    let processed := process name.text
    let nameIsUnchanged :=
      if debugMode && !(origT == processed) then false else name.isUnchanged
    { text := processed,
      isUnchanged := nameIsUnchanged,
      language := name.language,
      wikidataId := name.wikidataId,
      conllType := name.conllType,
      anomalous := name.anomalous,
      noiseSample := name.noiseSample,
      englishText := name.englishText,
      analyzeUnicode := true,
      alignment := name.alignment,
      origText := some origT }

/-!  `itertools.permutations`, used by `PermuteLowestDistance`.

`it.permutations(l)` yields the tuples obtained by picking the elements of `l`
in every index order, index sequences enumerated lexicographically: pick each
element (in list order) as head, recurse on the remainder.  `picks l` lists
the (head, remainder) choices in that order; the recursion is given the exact
fuel `l.length` (each pick removes one element) so it stays structural and
kernel-reducible. -/

/-- All ways to pick one element, in index order, keeping the remainder's order. -/
def picks : List α → List (α × List α)
  | [] => []
  | x :: xs => (x, xs) :: (picks xs).map (fun p => (p.1, x :: p.2))

/-- Fuelled permutation enumeration (fuel ≥ length is exact). -/
def pyPermsAux : ℕ → List α → List (List α)
  | _, [] => [[]]
  | 0, _ :: _ => []
  | n + 1, x :: xs =>
    ((picks (x :: xs)).map (fun p => (pyPermsAux n p.2).map (fun σ => p.1 :: σ))).flatten

/-- `list(it.permutations(l))` as lists. -/
def pyPermutations (l : List α) : List (List α) := pyPermsAux l.length l

/-- `" ".join(tokens)`. -/
def joinSp : List (List Char) → List Char
  | [] => []
  | [t] => t
  | t :: ts => t ++ ' ' :: joinSp ts

/-!  `editdistance.eval`: the (unit-cost) Levenshtein distance.  Written with
fuel `a.length + b.length` so the textbook recursion stays structural and
kernel-reducible; the fuel is exact since every recursive call shortens the
combined length. -/

def editDistanceAux : ℕ → List Char → List Char → ℕ
  | _, [], ys => ys.length
  | _, x :: xs, [] => (x :: xs).length
  | 0, _ :: _, _ :: _ => 0
  | n + 1, x :: xs, y :: ys =>
    if x = y then editDistanceAux n xs ys
    else
      1 + min (editDistanceAux n xs (y :: ys))
          (min (editDistanceAux n (x :: xs) ys) (editDistanceAux n xs ys))

def editDistanceEval (a b : List Char) : ℕ := editDistanceAux (a.length + b.length) a b

/-- The library default `distance_function=editdistance.eval`, applied as the
source applies it to `(rom_permutation, name.english_text)`; the claims only
exercise it on present (`some`) references (with `english_text=None` the
Python call would raise a `TypeError`). -/
def levDist (r : List Char) (e : Option (List Char)) : ℕ :=
  editDistanceEval r (e.getD [])

/-!  `PermuteLowestDistance` (source lines 681-805).

The romanization oracle (`UniversalRomanizer`, an external subprocess) is a
parameter `romanize`; the configured `distance_function` is a parameter
`dist`, applied exactly as the source applies it, to the joined romanized
permutation and the name's `english_text`.  `best_distance = np.inf` is the
`none` accumulator below, and `ed < best_distance` is `ltInf`. -/

/-- `ed < best_distance` with `best_distance : float` starting at `np.inf`. -/
def ltInf (ed : ℕ) : Option ℕ → Bool
  | none => true
  | some m => ed < m

/-- Tokenization shared by both mutation modes:
`self.remove_comma(text).split()`. -/
def pldTokens (t : List Char) : List (List Char) := pySplitWs (pyRemoveComma t)

/-- `zip(permuted, permuted_romanized)`: the joined original-token and
romanized-token permutations, paired positionally. -/
def pldPairs (tokens romanizedTokens : List (List Char)) : List (List Char × List Char) :=
  ((pyPermutations tokens).map joinSp).zip ((pyPermutations romanizedTokens).map joinSp)

/-- The selection loop, parametric in what the winner is recorded as
(`record` is `strip_comma(permutation).strip()` in `_call_immutable` and the
bare `permutation` in `_call_inplace`); starts from
`(np.inf, name.text)`. -/
def pldBestName (record : List Char → List Char)
    (dist : List Char → Option (List Char) → ℕ) (eng : Option (List Char))
    (pairs : List (List Char × List Char)) (orig : List Char) : List Char :=
  (pairs.foldl
    (fun (acc : Option ℕ × List Char) pr =>
      let ed := dist pr.2 eng
      if ltInf ed acc.1 then (some ed, record pr.1) else acc)
    (none, orig)).2

/-- The same loop recording the winning pair's raw permutation; used to reason
about both modes at once. -/
def pldFoldCore (dist : List Char → Option (List Char) → ℕ) (eng : Option (List Char)) :
    List (List Char × List Char) → Option ℕ × Option (List Char) →
      Option ℕ × Option (List Char)
  | [], acc => acc
  | pr :: rest, acc =>
    let ed := dist pr.2 eng
    pldFoldCore dist eng rest (if ltInf ed acc.1 then (some ed, some pr.1) else acc)

/-- The per-name body of `PermuteLowestDistance._call_immutable` (lines
712-763): skip when the token count is out of bounds, otherwise construct a
fresh name from the winning permutation.  The fresh name is built from the
constructor keywords of lines 751-762 — `alignment` is not among them. -/
def pldProcessImmutable (dist : List Char → Option (List Char) → ℕ) (lb ub : ℕ)
    (name : TransliteratedName) (romanizedName : List Char) : TransliteratedName :=
  let tokens := pldTokens name.text
  let romanizedTokens := pldTokens romanizedName
  let origT := name.text
  if !(lb ≤ tokens.length && tokens.length ≤ ub) then name
  else
    let bestName :=
      pldBestName (fun p => pyStrip (pyStripComma p)) dist name.englishText
        (pldPairs tokens romanizedTokens) name.text
    { text := pyStripComma bestName,
      isUnchanged := bestName == origT,
      language := name.language,
      wikidataId := name.wikidataId,
      conllType := name.conllType,
      anomalous := name.anomalous,
      noiseSample := name.noiseSample,
      englishText := name.englishText,
      analyzeUnicode := true,
      alignment := none,
      origText := some origT }

/-- The per-name body of `PermuteLowestDistance._call_inplace` (lines
773-804): the winner is recorded as the bare permutation and the same object
is updated. -/
def pldProcessInplace (dist : List Char → Option (List Char) → ℕ) (lb ub : ℕ)
    (name : TransliteratedName) (romanizedName : List Char) : TransliteratedName :=
  let tokens := pldTokens name.text
  let romanizedTokens := pldTokens romanizedName
  let origT := name.text
  if !(lb ≤ tokens.length && tokens.length ≤ ub) then name
  else
    let bestName :=
      pldBestName (fun p => p) dist name.englishText
        (pldPairs tokens romanizedTokens) name.text
    { name with
      text := pyStripComma bestName,
      isUnchanged := bestName == origT,
      origText := some origT }

/-- `PermuteLowestDistance._call_immutable` over a batch: one romanization
call for the whole batch, then `zip(names, romanized_names)` (so a
short romanizer output would silently truncate the output list). -/
def pldCallImmutable (dist : List Char → Option (List Char) → ℕ) (lb ub : ℕ)
    (romanize : List (List Char) → List (List Char))
    (names : List TransliteratedName) : List TransliteratedName :=
  let romanizedNames := romanize (names.map (fun n => n.text))
  (names.zip romanizedNames).map (fun pr => pldProcessImmutable dist lb ub pr.1 pr.2)

/-- `PermuteLowestDistance._call_inplace` over a batch: the zipped prefix is
mutated, the rest of `names` is returned untouched. -/
def pldCallInplace (dist : List Char → Option (List Char) → ℕ) (lb ub : ℕ)
    (romanize : List (List Char) → List (List Char))
    (names : List TransliteratedName) : List TransliteratedName :=
  let romanizedNames := romanize (names.map (fun n => n.text))
  (names.zip romanizedNames).map (fun pr => pldProcessInplace dist lb ub pr.1 pr.2)
    ++ names.drop (names.zip romanizedNames).length

/-!  `AnomalousTagger` and `AggregatedTagger` (source lines 1033-1204).

A tagger is its `classify` function; `__call__` rebuilds each name passing
only the keywords of lines 1041-1049 (so `english_text`, `noise_sample`,
`alignment` and `_original_text` revert to their defaults). -/

/-- `AnomalousTagger.__call__`. -/
def anomalousTaggerCall (classify : TransliteratedName → Option Bool)
    (names : List TransliteratedName) : List TransliteratedName :=
  names.map fun n =>
    { text := n.text,
      isUnchanged := n.isUnchanged,
      language := n.language,
      wikidataId := n.wikidataId,
      conllType := n.conllType,
      anomalous := classify n,
      noiseSample := some false,
      englishText := none,
      analyzeUnicode := true,
      alignment := none,
      origText := none }

/-- `AnomalousTagger.get_preds`: classify each name and encode the tri-state
answer as `1` (anomalous), `-1` (not anomalous), `0` (abstain). -/
def getPreds (classify : TransliteratedName → Option Bool)
    (names : List TransliteratedName) : List ℤ :=
  (anomalousTaggerCall classify names).map fun w =>
    match w.anomalous with
    | none => 0
    | some true => 1
    | some false => -1

/-- The three aggregation methods of `AggregatedTagger`. -/
inductive AggMethod
  | all
  | any
  | majorityVote
  deriving Repr, DecidableEq

/-- The `aggregator_function` dictionary.  Python's builtin `all`/`any` test
*truthiness* of the integer votes, so a vote counts as `True` exactly when it
is nonzero; `majority_vote` is `np.mean(preds) > 0`, i.e. the sum is
positive (`np.mean([])` is `nan` and `nan > 0` is false, matching `sum = 0`). -/
def aggregatorFunction : AggMethod → List ℤ → Bool
  | .all, preds => preds.all (fun p => !(p == 0))
  | .any, preds => preds.any (fun p => !(p == 0))
  | .majorityVote, preds => 0 < preds.sum

/-- `zip(*preds_per_tagger)` with exact fuel (the length of the first list):
transpose truncated to the shortest row, empty when there are no rows. -/
def pyZipStarAux : ℕ → List (List ℤ) → List (List ℤ)
  | _, [] => []
  | 0, _ :: _ => []
  | n + 1, ls =>
    if ls.any (fun l => l.isEmpty) then []
    else ls.map (fun l => l.headD 0) :: pyZipStarAux n (ls.map (fun l => l.tail))

def pyZipStar (ls : List (List ℤ)) : List (List ℤ) :=
  pyZipStarAux (ls.headD []).length ls

/-- `AggregatedTagger.__call__` (lines 1184-1204): per-tagger predictions,
transposed per name, aggregated, and each name rebuilt with the aggregate
flag (and `noise_sample=False`). -/
def aggregatedTaggerCall (classifiers : List (TransliteratedName → Option Bool))
    (method : AggMethod) (names : List TransliteratedName) : List TransliteratedName :=
  let predsPerTagger := classifiers.map (fun c => getPreds c names)
  let preds := pyZipStar predsPerTagger
  let booleanPreds := preds.map (aggregatorFunction method)
  (names.zip booleanPreds).map fun wp =>
    { text := wp.1.text,
      isUnchanged := wp.1.isUnchanged,
      language := wp.1.language,
      wikidataId := wp.1.wikidataId,
      conllType := wp.1.conllType,
      anomalous := some wp.2,
      noiseSample := some false,
      englishText := none,
      analyzeUnicode := true,
      alignment := none,
      origText := none }

/-!  `CorpusStatistics` (source lines 356-385). -/

structure CorpusStats where
  meanCrossAlignments : ℚ
  totalCrossAlignments : ℤ
  totalPermuted : ℕ
  totalSurviving : ℕ
  totalNames : ℕ
  deriving Repr, DecidableEq

/-- `CorpusStatistics(names=...).__attrs_post_init__`: count the names and sum
the attached alignments' cross-alignment counts, then divide by `total_names`
— with no guard, so the empty collection raises `ZeroDivisionError`
(`none`). -/
def corpusStatistics (names : List TransliteratedName) : Option CorpusStats :=
  let totalNames := names.length
  let totalCross :=
    names.foldl
      (fun (acc : ℤ) n => match n.alignment with | some a => acc + a.nCross | none => acc) 0
  if totalNames = 0 then none
  else
    some
      { meanCrossAlignments := (totalCross : ℚ) / (totalNames : ℚ),
        totalCrossAlignments := totalCross,
        totalPermuted := (names.filter (fun n => !n.isUnchanged)).length,
        totalSurviving := (names.filter (fun n => n.isUnchanged)).length,
        totalNames := totalNames }

/-- Injection of a parsed pair into the code's tuple representation. -/
def pairTup (p : ℤ × ℤ) : List ℤ := [p.1, p.2]

/-- A token fit for joining: nonempty, no whitespace, no comma. -/
def goodTok (t : List Char) : Prop :=
  t ≠ [] ∧ ∀ c ∈ t, pyIsSpace c = false ∧ c ≠ ','

/-- Default pair for `getD`-style indexing. -/
def dfltPair : List Char × List Char := ([], [])

/-!  Concrete fixtures used by the evaluation theorems and witnesses. -/

/-- A name whose text a previous transform already changed: `is_unchanged` is
`false` and the best permutation of `"a b"` against the reference `"a b"` is
the text itself. -/
def nameAB : TransliteratedName :=
  { text := chars "a b", isUnchanged := false, englishText := some (chars "a b") }

/-- A fresh, unchanged name with a one-character text. -/
def nameY : TransliteratedName := { text := chars "y", isUnchanged := true }

/-- A trivial name for the aggregator evaluations. -/
def nameT : TransliteratedName := { text := chars "t", isUnchanged := true }

/-- A name carrying an original-text snapshot (`"x"`) differing from its
current text (`"y"`). -/
def nameXY : TransliteratedName :=
  { text := chars "y", isUnchanged := false, origText := some (chars "x") }

/-- The spec's permutation example. -/
def nameDoeJohn : TransliteratedName :=
  { text := chars "Doe John", isUnchanged := true, englishText := some (chars "John Doe") }

/-- A single-token name (token count below the default lower bound 2). -/
def nameOneTok : TransliteratedName :=
  { text := chars "onetoken", isUnchanged := true, englishText := some (chars "x") }

/-- A five-token name (token count above the default upper bound 4). -/
def nameFiveTok : TransliteratedName :=
  { text := chars "a b c d e", isUnchanged := true, englishText := some (chars "x") }

/-- A name carrying an alignment with 3 cross-alignments. -/
def nameAligned : TransliteratedName :=
  { text := chars "t", isUnchanged := false,
    alignment := some { alignmentStr := chars "0-1 1-0", nCross := 3 } }

/-!  Helper lemmas for C1: the code's tuple-list pipeline agrees with the
claim's pair pipeline when every token is a well-formed `"i-j"` pair. -/

lemma parsePair_parts {t : List Char} {p : ℤ × ℤ} (h : parsePair t = some p) :
    mapOpt pyInt (pySplitSep '-' t) = some (pairTup p) := by
  unfold parsePair at h
  cases hi : mapOpt pyInt (pySplitSep '-' t) with
  | none => rw [hi] at h; simp at h
  | some lint =>
    rw [hi] at h
    rcases lint with _ | ⟨a, _ | ⟨b, _ | ⟨c, tl⟩⟩⟩
    · simp at h
    · simp at h
    · simp only [Option.some.injEq] at h
      subst h
      simp [pairTup]
    · simp at h

lemma mapOpt_parsePair_parts :
    ∀ (toks : List (List Char)) (ps : List (ℤ × ℤ)),
      mapOpt parsePair toks = some ps →
      mapOpt (fun t => mapOpt pyInt (pySplitSep '-' t)) toks = some (ps.map pairTup) := by
  intro toks
  induction toks with
  | nil => intro ps h; simp [mapOpt] at h ⊢; simp [← h]
  | cons t rest ih =>
    intro ps h
    simp only [mapOpt] at h ⊢
    cases hp : parsePair t with
    | none => rw [hp] at h; simp at h
    | some p =>
      cases hr : mapOpt parsePair rest with
      | none => rw [hp, hr] at h; simp at h
      | some ps' =>
        rw [hp, hr] at h
        simp only [Option.some.injEq] at h
        rw [parsePair_parts hp, ih ps' hr, ← h]
        simp

lemma insertByFst_map (p : ℤ × ℤ) (l : List (ℤ × ℤ)) :
    insertByFst (pairTup p) (l.map pairTup) = (insertPairByFst p l).map pairTup := by
  induction l with
  | nil => simp [insertByFst, insertPairByFst]
  | cons y ys ih =>
    simp only [pairTup] at ih ⊢
    simp only [List.map_cons, insertByFst, insertPairByFst, List.headD]
    by_cases hc : y.1 ≤ p.1 <;> simp [hc, ih, pairTup]

lemma sortFold_map :
    ∀ (ps : List (ℤ × ℤ)) (acc : List (ℤ × ℤ)),
      (ps.map pairTup).foldl (fun acc x => insertByFst x acc) (acc.map pairTup)
        = ((ps.foldl (fun acc x => insertPairByFst x acc) acc).map pairTup) := by
  intro ps
  induction ps with
  | nil => intro acc; simp
  | cons p rest ih =>
    intro acc
    simp only [List.map_cons, List.foldl_cons]
    rw [insertByFst_map, ih]

lemma pySortedByFst_map (ps : List (ℤ × ℤ)) :
    pySortedByFst (ps.map pairTup) = (claimSortPairs ps).map pairTup := by
  have := sortFold_map ps []
  simpa [pySortedByFst, claimSortPairs] using this

lemma scanFold_map :
    ∀ (l : List (ℤ × ℤ)) (acc : ℤ × ℤ),
      (l.map pairTup).foldl
          (fun (acc : ℤ × ℤ) tok =>
            match tok with
            | [_, target] => (if target < acc.2 then acc.1 + 1 else acc.1, max acc.2 target)
            | _ => acc) acc
        = l.foldl
            (fun (acc : ℤ × ℤ) p =>
              (if p.2 < acc.2 then acc.1 + 1 else acc.1, max acc.2 p.2)) acc := by
  intro l
  induction l with
  | nil => intro acc; simp
  | cons p rest ih =>
    intro acc
    simp only [List.map_cons, List.foldl_cons, pairTup]
    exact ih _

lemma scanCross_map (l : List (ℤ × ℤ)) :
    scanCross (l.map pairTup) = claimInversionCount l := by
  unfold scanCross claimInversionCount
  rw [scanFold_map]

/-- C1: for every pair string whose whitespace-separated tokens all parse as
`"i-j"` integer pairs, the constructed `Alignment`'s `n_cross_alignments`
equals the claim's inversion count of those pairs sorted by source index
(max_seen starts at 0; count pairs with `j < max_seen`; update
`max_seen := max max_seen j`); it is 0 for an empty or whitespace-only pair
string and for a single pair, and 1 for `"0-0 1-2 2-1"`. -/
theorem c1_cross_alignment_count :
    (∀ (s : List Char) (ps : List (ℤ × ℤ)),
        mapOpt parsePair (pySplitSep ' ' (pyStrip s)) = some ps →
        alignmentNCross s = some (claimInversionCount (claimSortPairs ps)))
    ∧ alignmentNCross (chars "") = some 0
    ∧ alignmentNCross (chars " \t ") = some 0
    ∧ (∀ i j : ℤ, 0 ≤ j → claimInversionCount [(i, j)] = 0)
    ∧ alignmentNCross (chars "3-1") = some 0
    ∧ alignmentNCross (chars "0-0 1-2 2-1") = some 1 := by
  refine ⟨?_, by decide, by decide, ?_, by decide, by decide⟩
  · intro s ps h
    have hne : pyStrip s ≠ [] := by
      intro hemp
      have h0 : mapOpt parsePair (pySplitSep ' ' ([] : List Char)) = none := rfl
      rw [hemp, h0] at h
      cases h
    have hii : (pyStrip s).isEmpty = false := by
      cases hstrip : pyStrip s
      · exact absurd hstrip hne
      · rfl
    have hparts := mapOpt_parsePair_parts _ ps h
    have hcc : computeCrossAlignments (pyStrip s)
        = some (claimInversionCount (claimSortPairs ps)) := by
      unfold computeCrossAlignments
      rw [hparts]
      simp only [Option.map_some']
      rw [pySortedByFst_map, scanCross_map]
    unfold alignmentNCross mkAlignment
    simp only [hii, Bool.false_eq_true, if_false, hcc, Option.map_some']
  · intro i j hj
    simp [claimInversionCount, not_lt.mpr hj]

/-- Witness for C1 at the concrete pair string `"0-0 1-2 2-1"` and the
single pair `(3, 5)`. -/
theorem c1_cross_alignment_count_witness :
    (mapOpt parsePair (pySplitSep ' ' (pyStrip (chars "0-0 1-2 2-1")))
        = some [(0, 0), (1, 2), (2, 1)]
      ∧ alignmentNCross (chars "0-0 1-2 2-1")
        = some (claimInversionCount (claimSortPairs [(0, 0), (1, 2), (2, 1)])))
    ∧ (0 : ℤ) ≤ 5 ∧ claimInversionCount [((3 : ℤ), (5 : ℤ))] = 0 :=
  ⟨⟨by decide, c1_cross_alignment_count.1 _ _ (by decide)⟩,
    by decide, c1_cross_alignment_count.2.2.2.1 3 5 (by decide)⟩

/-- C6: the claim says malformed alignment tokens are skipped silently and the
parse never raises; in the code the `int()` conversions run inside the
`sorted` comprehension, outside the `try`/`except`, so a token with a
non-integer part (`"a-b"`) raises `ValueError` (`none`) and aborts the whole
alignment, while only integer tokens of the wrong arity (`"1-2-9"`) are
skipped — those and the well-formed tokens still count. -/
theorem c6_malformed_token_aborts :
    alignmentNCross (chars "a-b") = none
    ∧ alignmentNCross (chars "0-0 1-2-9 1-3 2-1") = some 1 :=
  ⟨by decide, by decide⟩

/-- C3: the claim says a Name whose processed text differs gets
`is_unchanged = false` under every configuration; in the code the update is
guarded by `if self.debug_mode and orig_text != processed_name:`, so with
`debug_mode=False` (the default) the text changes and `original_text` is
recorded but `is_unchanged` stays `true`, in both mutation modes. -/
theorem c3_change_does_not_clear_unchanged :
    (npCallInplace (fun _ => chars "x") false [nameY]).map nameProj
        = [(chars "x", true, chars "y")]
    ∧ (npCallImmutable (fun _ => chars "x") false [nameY]).map nameProj
        = [(chars "x", true, chars "y")]
    ∧ nameY.text = chars "y" ∧ nameY.isUnchanged = true :=
  ⟨by decide, by decide, by decide, by decide⟩

/-- C2: the claim says no transform ever resets `is_unchanged` to true;
`PermuteLowestDistance` recomputes it as `best_name == orig_text`, so a name
entering with `is_unchanged = false` whose best permutation equals its current
text leaves with `is_unchanged = true`, in both mutation modes. -/
theorem c2_unchanged_reset_to_true :
    nameAB.isUnchanged = false
    ∧ (pldCallInplace levDist 2 4 (fun xs => xs) [nameAB]).map
        (fun m => m.isUnchanged) = [true]
    ∧ (pldCallImmutable levDist 2 4 (fun xs => xs) [nameAB]).map
        (fun m => m.isUnchanged) = [true] :=
  ⟨by decide, by decide, by decide⟩

/-- C5: the claim says `all` tags anomalous exactly when every non-abstaining
tagger votes anomalous and `any` when at least one votes anomalous; the code
feeds the integer votes to Python's truthiness-based `all`/`any`, so two
taggers that both vote *not*-anomalous (`-1`) yield anomalous under `all`, and
a single not-anomalous vote yields anomalous under `any`.  (All-abstain under
`all` does evaluate to not-anomalous, as the claim records.) -/
theorem c5_aggregator_uses_truthiness :
    (aggregatedTaggerCall [fun _ => some false, fun _ => some false] .all [nameT]).map
        (fun m => m.anomalous) = [some true]
    ∧ (aggregatedTaggerCall [fun _ => some false] .any [nameT]).map
        (fun m => m.anomalous) = [some true]
    ∧ (aggregatedTaggerCall [fun _ => none, fun _ => none] .all [nameT]).map
        (fun m => m.anomalous) = [some false] :=
  ⟨by decide, by decide, by decide⟩

/-- C7 counterexample: re-tagging a name whose stored original text (`"x"`)
differs from its current text (`"y"`) yields a name whose `original_text` is
`"y"`, not `"x"` — the tagger constructors do not pass `original_text`
through, so the snapshot is dropped (the single tagger and the aggregator
alike). -/
theorem c7_retagging_drops_original_text :
    (anomalousTaggerCall (fun _ => none) [nameXY]).map TransliteratedName.originalText
        ≠ [nameXY].map TransliteratedName.originalText
    ∧ (anomalousTaggerCall (fun _ => none) [nameXY]).map TransliteratedName.originalText
        = [chars "y"]
    ∧ [nameXY].map TransliteratedName.originalText = [chars "x"]
    ∧ (aggregatedTaggerCall [fun _ => none] .all [nameXY]).map
        TransliteratedName.originalText = [chars "y"] :=
  ⟨by decide, by decide, by decide, by decide⟩

lemma zip_getElem?_fst {α β : Type} {l₁ : List α} {l₂ : List β} :
    ∀ {i : ℕ} {p : α × β}, (l₁.zip l₂)[i]? = some p → l₁[i]? = some p.1 := by
  induction l₁ generalizing l₂ with
  | nil => intro i p h; simp at h
  | cons a as ih =>
    intro i p h
    cases l₂ with
    | nil => simp at h
    | cons b bs =>
      cases i with
      | zero =>
        simp only [List.zip_cons_cons, List.getElem?_cons_zero, Option.some.injEq] at h
        simp [← h]
      | succ n =>
        simp only [List.zip_cons_cons, List.getElem?_cons_succ] at h ⊢
        exact ih h

/-- C7 amended: re-tagging (single tagger or aggregator) preserves `text` and
`is_unchanged`, but resets the stored original-text snapshot: the re-tagged
name's `original_text` equals the input's *current* text, so the input's
`original_text` survives only when it already equals the text. -/
theorem c7_retagging_preserves_text_and_flag :
    (∀ (classify : TransliteratedName → Option Bool) (names : List TransliteratedName)
        (i : ℕ) (m : TransliteratedName),
        (anomalousTaggerCall classify names)[i]? = some m →
        ∃ n, names[i]? = some n ∧ m.text = n.text ∧ m.isUnchanged = n.isUnchanged
          ∧ m.originalText = n.text)
    ∧ (∀ (classifiers : List (TransliteratedName → Option Bool)) (method : AggMethod)
        (names : List TransliteratedName) (i : ℕ) (m : TransliteratedName),
        (aggregatedTaggerCall classifiers method names)[i]? = some m →
        ∃ n, names[i]? = some n ∧ m.text = n.text ∧ m.isUnchanged = n.isUnchanged
          ∧ m.originalText = n.text) := by
  constructor
  · intro classify names i m h
    unfold anomalousTaggerCall at h
    rw [List.getElem?_map] at h
    cases hn : names[i]? with
    | none => rw [hn] at h; simp at h
    | some n =>
      rw [hn] at h
      simp only [Option.map_some', Option.some.injEq] at h
      exact ⟨n, rfl, by simp [← h], by simp [← h], by simp [← h, TransliteratedName.originalText]⟩
  · intro classifiers method names i m h
    unfold aggregatedTaggerCall at h
    rw [List.getElem?_map] at h
    cases hz : (names.zip
        ((pyZipStar (classifiers.map (fun c => getPreds c names))).map
          (aggregatorFunction method)))[i]? with
    | none => rw [hz] at h; simp at h
    | some pr =>
      rw [hz] at h
      simp only [Option.map_some', Option.some.injEq] at h
      refine ⟨pr.1, zip_getElem?_fst hz, by simp [← h], by simp [← h],
        by simp [← h, TransliteratedName.originalText]⟩

/-- Witness for C7's amended statement: the single tagger and the aggregator
applied to `nameXY` at index 0. -/
theorem c7_retagging_witness :
    (∃ n, ([nameXY] : List TransliteratedName)[0]? = some n
      ∧ chars "y" = n.text ∧ false = n.isUnchanged ∧ chars "y" = n.text)
    ∧ ∃ n, ([nameXY] : List TransliteratedName)[0]? = some n
      ∧ chars "y" = n.text ∧ false = n.isUnchanged ∧ chars "y" = n.text := by
  constructor
  · have h := c7_retagging_preserves_text_and_flag.1 (fun _ => none) [nameXY] 0
      { text := chars "y", isUnchanged := false, origText := none,
        noiseSample := some false, englishText := none, anomalous := none,
        alignment := none } (by decide)
    simpa [TransliteratedName.originalText] using h
  · have h := c7_retagging_preserves_text_and_flag.2 [fun _ => none] .all [nameXY] 0
      { text := chars "y", isUnchanged := false, origText := none,
        noiseSample := some false, englishText := none, anomalous := some false,
        alignment := none } (by decide)
    simpa [TransliteratedName.originalText] using h

/-!  Lemmas about `picks` and `pyPermutations`. -/

lemma picks_snd_length {α : Type} :
    ∀ {l : List α} {p : α × List α}, p ∈ picks l → p.2.length + 1 = l.length := by
  intro l
  induction l with
  | nil => intro p h; simp [picks] at h
  | cons x xs ih =>
    intro p h
    simp only [picks, List.mem_cons, List.mem_map] at h
    rcases h with h | ⟨q, hq, rfl⟩
    · subst h; simp
    · have := ih hq
      simp only [List.length_cons]
      omega

lemma picks_perm {α : Type} :
    ∀ {l : List α} {p : α × List α}, p ∈ picks l → (p.1 :: p.2).Perm l := by
  intro l
  induction l with
  | nil => intro p h; simp [picks] at h
  | cons x xs ih =>
    intro p h
    simp only [picks, List.mem_cons, List.mem_map] at h
    rcases h with h | ⟨q, hq, rfl⟩
    · subst h; exact List.Perm.refl _
    · exact (List.Perm.swap x q.1 q.2).trans ((ih hq).cons x)

lemma picks_complete {α : Type} [DecidableEq α] :
    ∀ {l : List α} {y : α}, y ∈ l → ∃ r, (y, r) ∈ picks l ∧ r.Perm (l.erase y) := by
  intro l
  induction l with
  | nil => intro y h; simp at h
  | cons x xs ih =>
    intro y h
    by_cases hxy : y = x
    · subst hxy
      exact ⟨xs, by simp [picks], by simp⟩
    · have hy : y ∈ xs := by
        rcases List.mem_cons.mp h with h' | h'
        · exact absurd h' hxy
        · exact h'
      obtain ⟨r, hr, hperm⟩ := ih hy
      refine ⟨x :: r, ?_, ?_⟩
      · simp only [picks, List.mem_cons, List.mem_map]
        exact Or.inr ⟨(y, r), hr, rfl⟩
      · rw [List.erase_cons_tail]
        · exact hperm.cons x
        · simp [Ne.symm hxy]

lemma picks_map {α β : Type} (f : α → β) :
    ∀ (l : List α), picks (l.map f) = (picks l).map (fun p => (f p.1, p.2.map f)) := by
  intro l
  induction l with
  | nil => simp [picks]
  | cons x xs ih =>
    simp only [List.map_cons, picks, ih, List.map_map]
    refine congrArg (List.cons _) (List.map_congr_left ?_)
    intro q _
    rfl

lemma pyPermsAux_sound {α : Type} :
    ∀ (n : ℕ) (l : List α) (σ : List α), l.length ≤ n → σ ∈ pyPermsAux n l → σ.Perm l := by
  intro n
  induction n with
  | zero =>
    intro l σ hlen h
    cases l with
    | nil => simp [pyPermsAux] at h; subst h; exact List.Perm.refl _
    | cons x xs => simp at hlen
  | succ n ih =>
    intro l σ hlen h
    cases l with
    | nil => simp [pyPermsAux] at h; subst h; exact List.Perm.refl _
    | cons x xs =>
      simp only [pyPermsAux, List.mem_flatten, List.mem_map] at h
      obtain ⟨chunk, ⟨p, hp, rfl⟩, hσ⟩ := h
      simp only [List.mem_map] at hσ
      obtain ⟨τ, hτ, rfl⟩ := hσ
      have hlen2 : p.2.length ≤ n := by
        have := picks_snd_length hp
        simp only [List.length_cons] at this hlen
        omega
      exact ((ih p.2 τ hlen2 hτ).cons p.1).trans (picks_perm hp)

lemma pyPermsAux_complete {α : Type} [DecidableEq α] :
    ∀ (n : ℕ) (l : List α) (σ : List α), l.length ≤ n → σ.Perm l → σ ∈ pyPermsAux n l := by
  intro n
  induction n with
  | zero =>
    intro l σ hlen hperm
    cases l with
    | nil => simp [pyPermsAux, hperm.eq_nil (l := σ)]
    | cons x xs => simp at hlen
  | succ n ih =>
    intro l σ hlen hperm
    cases l with
    | nil => simp [pyPermsAux, hperm.eq_nil (l := σ)]
    | cons x xs =>
      cases σ with
      | nil =>
        have := hperm.length_eq
        simp at this
      | cons y σ2 =>
        have hy : y ∈ x :: xs := hperm.mem_iff.mp (List.mem_cons_self y σ2)
        obtain ⟨r, hr, hrperm⟩ := picks_complete hy
        have hσ2 : σ2.Perm r := by
          have h1 : σ2.Perm ((x :: xs).erase y) :=
            (List.cons_perm_iff_perm_erase.mp hperm).2
          exact h1.trans hrperm.symm
        have hrlen : r.length ≤ n := by
          have := picks_snd_length (p := (y, r)) hr
          simp only [List.length_cons] at this hlen
          omega
        simp only [pyPermsAux, List.mem_flatten, List.mem_map]
        exact ⟨(pyPermsAux n r).map (fun σ => y :: σ), ⟨(y, r), hr, rfl⟩,
          List.mem_map.mpr ⟨σ2, ih r σ2 hrlen hσ2, rfl⟩⟩

/-- `pyPermutations` enumerates exactly the permutations of its input. -/
lemma pyPermutations_iff {α : Type} [DecidableEq α] (σ l : List α) :
    σ ∈ pyPermutations l ↔ σ.Perm l :=
  ⟨pyPermsAux_sound l.length l σ le_rfl, pyPermsAux_complete l.length l σ le_rfl⟩

lemma pyPermsAux_ne_nil {α : Type} :
    ∀ (n : ℕ) (l : List α), l.length ≤ n → pyPermsAux n l ≠ [] := by
  intro n
  induction n with
  | zero =>
    intro l hlen
    cases l with
    | nil => simp [pyPermsAux]
    | cons x xs => simp at hlen
  | succ n ih =>
    intro l hlen
    cases l with
    | nil => simp [pyPermsAux]
    | cons x xs =>
      simp only [pyPermsAux, picks, List.map_cons, List.flatten_cons]
      intro hcontra
      rcases List.append_eq_nil.mp hcontra with ⟨h1, _⟩
      have : pyPermsAux n xs ≠ [] := by
        apply ih
        simp only [List.length_cons] at hlen
        omega
      exact this (List.map_eq_nil_iff.mp h1)

lemma pyPermutations_ne_nil {α : Type} (l : List α) : pyPermutations l ≠ [] :=
  pyPermsAux_ne_nil l.length l le_rfl

lemma pyPermsAux_map {α β : Type} (f : α → β) :
    ∀ (n : ℕ) (l : List α),
      pyPermsAux n (l.map f) = (pyPermsAux n l).map (List.map f) := by
  intro n
  induction n with
  | zero =>
    intro l
    cases l with
    | nil => simp [pyPermsAux]
    | cons x xs => simp [pyPermsAux]
  | succ n ih =>
    intro l
    cases l with
    | nil => simp [pyPermsAux]
    | cons x xs =>
      show ((picks ((x :: xs).map f)).map
          (fun p => (pyPermsAux n p.2).map (fun σ => p.1 :: σ))).flatten
        = (((picks (x :: xs)).map
          (fun p => (pyPermsAux n p.2).map (fun σ => p.1 :: σ))).flatten).map (List.map f)
      rw [picks_map, List.map_flatten, List.map_map, List.map_map]
      congr 1
      apply List.map_congr_left
      intro p _
      simp only [Function.comp_apply, ih, List.map_map]
      apply List.map_congr_left
      intro τ _
      simp

/-- Lockstep: the permutations of two equal-length token lists, as enumerated
by `itertools.permutations`, are the same index permutations applied to each
list. -/
lemma pyPermutations_map {α β : Type} (f : α → β) (l : List α) :
    pyPermutations (l.map f) = (pyPermutations l).map (List.map f) := by
  unfold pyPermutations
  rw [List.length_map]
  exact pyPermsAux_map f l.length l

/-!  Token goodness: `remove_comma(text).split()` yields nonempty tokens free
of whitespace and commas, so joining any permutation of them with single
spaces gives a string that `strip_comma(...).strip()` leaves alone.  -/

lemma pySplitWsAux_sound :
    ∀ (l cur : List Char), (∀ c ∈ cur, pyIsSpace c = false) →
      ∀ t ∈ pySplitWsAux cur l,
        t ≠ [] ∧ ∀ c ∈ t, pyIsSpace c = false ∧ (c ∈ cur ∨ c ∈ l) := by
  intro l
  induction l with
  | nil =>
    intro cur hcur t ht
    cases cur with
    | nil => simp [pySplitWsAux] at ht
    | cons c cs =>
      simp only [pySplitWsAux, List.isEmpty_cons, Bool.false_eq_true, if_false,
        List.mem_singleton] at ht
      subst ht
      refine ⟨by simp, fun c' hc' => ?_⟩
      rw [List.mem_reverse] at hc'
      exact ⟨hcur c' hc', Or.inl hc'⟩
  | cons c cs ih =>
    intro cur hcur t ht
    simp only [pySplitWsAux] at ht
    cases hsp : pyIsSpace c with
    | false =>
      rw [hsp] at ht
      simp only [Bool.false_eq_true, if_false] at ht
      have hgood : ∀ c' ∈ c :: cur, pyIsSpace c' = false := by
        intro c' hc'
        rcases List.mem_cons.mp hc' with h' | h'
        · subst h'; exact hsp
        · exact hcur c' h'
      obtain ⟨h1, h2⟩ := ih (c :: cur) hgood t ht
      refine ⟨h1, fun c' hc' => ?_⟩
      obtain ⟨hs, hm⟩ := h2 c' hc'
      refine ⟨hs, ?_⟩
      rcases hm with h' | h'
      · rcases List.mem_cons.mp h' with h'' | h''
        · subst h''; exact Or.inr (List.mem_cons_self _ _)
        · exact Or.inl h''
      · exact Or.inr (List.mem_cons_of_mem _ h')
    | true =>
      rw [hsp] at ht
      simp only [if_true] at ht
      cases cur with
      | nil =>
        simp only [List.isEmpty_nil, if_true] at ht
        obtain ⟨h1, h2⟩ := ih [] (by simp) t ht
        refine ⟨h1, fun c' hc' => ?_⟩
        obtain ⟨hs, hm⟩ := h2 c' hc'
        rcases hm with h' | h'
        · simp at h'
        · exact ⟨hs, Or.inr (List.mem_cons_of_mem _ h')⟩
      | cons d ds =>
        simp only [List.isEmpty_cons, Bool.false_eq_true, if_false,
          List.mem_cons] at ht
        rcases ht with ht | ht
        · subst ht
          refine ⟨by simp, fun c' hc' => ?_⟩
          rw [List.mem_reverse] at hc'
          exact ⟨hcur c' hc', Or.inl hc'⟩
        · obtain ⟨h1, h2⟩ := ih [] (by simp) t ht
          refine ⟨h1, fun c' hc' => ?_⟩
          obtain ⟨hs, hm⟩ := h2 c' hc'
          rcases hm with h' | h'
          · simp at h'
          · exact ⟨hs, Or.inr (List.mem_cons_of_mem _ h')⟩

lemma pldTokens_good (x : List Char) : ∀ t ∈ pldTokens x, goodTok t := by
  intro t ht
  have h := pySplitWsAux_sound (pyRemoveComma x) [] (by simp) t ht
  refine ⟨h.1, fun c hc => ⟨(h.2 c hc).1, ?_⟩⟩
  rcases (h.2 c hc).2 with h' | h'
  · simp at h'
  · have hf := List.mem_filter.mp h'
    intro hcomma
    subst hcomma
    simp at hf

lemma joinSp_ne_nil :
    ∀ (σ : List (List Char)), σ ≠ [] → (∀ t ∈ σ, t ≠ []) → joinSp σ ≠ [] := by
  intro σ hne hall
  cases σ with
  | nil => exact absurd rfl hne
  | cons t ts =>
    cases ts with
    | nil => simpa [joinSp] using hall t (by simp)
    | cons u us =>
      show t ++ ' ' :: joinSp (u :: us) ≠ []
      simp

lemma dropWhile_joinSp (q : Char → Bool)
    (hq : ∀ c, pyIsSpace c = false → c ≠ ',' → q c = false) :
    ∀ (σ : List (List Char)), (∀ t ∈ σ, goodTok t) →
      (joinSp σ).dropWhile q = joinSp σ := by
  intro σ hσ
  cases σ with
  | nil => rfl
  | cons t ts =>
    obtain ⟨hne, hchars⟩ := hσ t (by simp)
    cases t with
    | nil => exact absurd rfl hne
    | cons c t2 =>
      have hc := hchars c (by simp)
      have hqc : q c = false := hq c hc.1 hc.2
      cases ts with
      | nil =>
        show (c :: t2).dropWhile q = c :: t2
        simp [List.dropWhile_cons, hqc]
      | cons u us =>
        show ((c :: t2) ++ ' ' :: joinSp (u :: us)).dropWhile q = _
        rw [List.cons_append, List.dropWhile_cons_of_neg (by simp [hqc])]
        rfl

lemma dropTrailing_eq_self (q : Char → Bool) :
    ∀ (l : List Char), (∀ c, l.getLast? = some c → q c = false) →
      pyDropTrailing q l = l := by
  intro l
  induction l with
  | nil => intro _; rfl
  | cons c rest ih =>
    intro h
    cases rest with
    | nil =>
      have hc := h c (by simp)
      show (if (pyDropTrailing q []).isEmpty && q c then [] else c :: pyDropTrailing q []) = [c]
      simp [pyDropTrailing, hc]
    | cons d ds =>
      have hrest : pyDropTrailing q (d :: ds) = d :: ds :=
        ih (fun c' hc' => h c' (by rw [List.getLast?_cons_cons]; exact hc'))
      show (if (pyDropTrailing q (d :: ds)).isEmpty && q c then []
          else c :: pyDropTrailing q (d :: ds)) = c :: d :: ds
      rw [hrest]
      simp

lemma joinSp_getLast? :
    ∀ (ts : List (List Char)) (t : List Char), t ≠ [] → (∀ u ∈ ts, u ≠ []) →
      (joinSp (ts ++ [t])).getLast? = t.getLast? := by
  intro ts
  induction ts with
  | nil => intro t ht _; simp [joinSp]
  | cons a as ih =>
    intro t ht hall
    have hne : as ++ [t] ≠ [] := by simp
    have hstep : joinSp (a :: (as ++ [t])) = a ++ ' ' :: joinSp (as ++ [t]) := by
      cases hcase : as ++ [t] with
      | nil => exact absurd hcase hne
      | cons u us => rfl
    rw [List.cons_append, hstep,
      @List.getLast?_append_of_ne_nil Char a (' ' :: joinSp (as ++ [t])) (by simp)]
    have hjne : joinSp (as ++ [t]) ≠ [] := by
      apply joinSp_ne_nil _ hne
      intro u hu
      rcases List.mem_append.mp hu with h' | h'
      · exact hall u (List.mem_cons_of_mem _ h')
      · rw [List.mem_singleton] at h'
        subst h'
        exact ht
    cases hj : joinSp (as ++ [t]) with
    | nil => exact absurd hj hjne
    | cons v vs =>
      rw [List.getLast?_cons_cons, ← hj]
      exact ih t ht (fun u hu => hall u (List.mem_cons_of_mem _ hu))

lemma stripP_joinSp (q : Char → Bool)
    (hq : ∀ c, pyIsSpace c = false → c ≠ ',' → q c = false)
    (σ : List (List Char)) (hσ : ∀ t ∈ σ, goodTok t) :
    pyStripP q (joinSp σ) = joinSp σ := by
  unfold pyStripP
  rw [dropWhile_joinSp q hq σ hσ]
  apply dropTrailing_eq_self
  intro c hc
  rcases List.eq_nil_or_concat σ with hnil | ⟨ts, t, hcat⟩
  · subst hnil; simp [joinSp] at hc
  · rw [hcat, List.concat_eq_append] at hc
    have hsub : ∀ u ∈ σ, u ≠ [] := fun u hu => (hσ u hu).1
    rw [hcat, List.concat_eq_append] at hsub
    have htgood : goodTok t := by
      rw [hcat, List.concat_eq_append] at hσ
      exact hσ t (by simp)
    rw [joinSp_getLast? ts t htgood.1
      (fun u hu => hsub u (List.mem_append.mpr (Or.inl hu)))] at hc
    have hcmem := List.mem_of_mem_getLast? hc
    obtain ⟨hs, hcm⟩ := htgood.2 c hcmem
    exact hq c hs hcm

/-- Joining good tokens is a fixed point of `strip_comma(...).strip()`. -/
lemma strip_stripComma_joinSp (σ : List (List Char)) (hσ : ∀ t ∈ σ, goodTok t) :
    pyStrip (pyStripComma (joinSp σ)) = joinSp σ := by
  have h1 : pyStripComma (joinSp σ) = joinSp σ := by
    apply stripP_joinSp _ _ σ hσ
    intro c _ hc
    simp [hc]
  have h2 : pyStrip (joinSp σ) = joinSp σ := by
    apply stripP_joinSp _ _ σ hσ
    intro c hc _
    exact hc
  rw [h1, h2]

/-!  Characterization of the selection loop. -/

lemma ltInf_none (ed : ℕ) : ltInf ed none = true := rfl

lemma ltInf_some (ed m : ℕ) : ltInf ed (some m) = decide (ed < m) := rfl

/-- Both mode-specific loops are the core loop post-composed with their
`record` function (with `b0` the initial `best_name`). -/
lemma pldBestFold_eq_core (record : List Char → List Char)
    (dist : List Char → Option (List Char) → ℕ) (eng : Option (List Char)) :
    ∀ (pairs : List (List Char × List Char)) (d0 : Option ℕ)
      (r0 : Option (List Char)) (b0 : List Char),
      (pairs.foldl
        (fun (acc : Option ℕ × List Char) pr =>
          let ed := dist pr.2 eng
          if ltInf ed acc.1 then (some ed, record pr.1) else acc)
        (d0, match r0 with | none => b0 | some p => record p)).2
      = (match (pldFoldCore dist eng pairs (d0, r0)).2 with
         | none => b0
         | some p => record p) := by
  intro pairs
  induction pairs with
  | nil => intro d0 r0 b0; rfl
  | cons pr rest ih =>
    intro d0 r0 b0
    simp only [List.foldl_cons, pldFoldCore]
    cases hlt : ltInf (dist pr.2 eng) d0 with
    | true =>
      simp only [hlt, if_true]
      exact ih (some (dist pr.2 eng)) (some pr.1) b0
    | false =>
      simp only [hlt, Bool.false_eq_true, if_false]
      exact ih d0 r0 b0

/-- `pldBestName` in terms of the core loop. -/
lemma pldBestName_eq_core (record : List Char → List Char)
    (dist : List Char → Option (List Char) → ℕ) (eng : Option (List Char))
    (pairs : List (List Char × List Char)) (orig : List Char) :
    pldBestName record dist eng pairs orig
      = match (pldFoldCore dist eng pairs (none, none)).2 with
        | none => orig
        | some p => record p :=
  pldBestFold_eq_core record dist eng pairs none none orig

/-- Full characterization of the core loop from an arbitrary accumulator:
either nothing beats the incoming distance and the accumulator survives, or
the result is the first minimum among the elements that beat it. -/
lemma pldFoldCore_spec (dist : List Char → Option (List Char) → ℕ)
    (eng : Option (List Char)) :
    ∀ (pairs : List (List Char × List Char)) (d0 : Option ℕ) (r0 : Option (List Char)),
      (pldFoldCore dist eng pairs (d0, r0) = (d0, r0)
        ∧ ∀ j, j < pairs.length → ltInf (dist (pairs.getD j dfltPair).2 eng) d0 = false)
      ∨ (∃ k, k < pairs.length
          ∧ pldFoldCore dist eng pairs (d0, r0)
              = (some (dist (pairs.getD k dfltPair).2 eng), some (pairs.getD k dfltPair).1)
          ∧ ltInf (dist (pairs.getD k dfltPair).2 eng) d0 = true
          ∧ (∀ j, j < pairs.length →
              dist (pairs.getD k dfltPair).2 eng ≤ dist (pairs.getD j dfltPair).2 eng)
          ∧ (∀ j, j < k →
              dist (pairs.getD k dfltPair).2 eng < dist (pairs.getD j dfltPair).2 eng)) := by
  intro pairs
  induction pairs with
  | nil => intro d0 r0; exact Or.inl ⟨rfl, by intro j hj; simp at hj⟩
  | cons pr rest ih =>
    intro d0 r0
    simp only [pldFoldCore]
    cases hlt : ltInf (dist pr.2 eng) d0 with
    | true =>
      simp only [hlt, if_true]
      rcases ih (some (dist pr.2 eng)) (some pr.1) with ⟨heq, hall⟩ | ⟨k, hk, heq, hltk, hmin, hfirst⟩
      · refine Or.inr ⟨0, by simp, by simpa [List.getD_cons_zero] using heq, by simpa using hlt, ?_, ?_⟩
        · intro j hj
          cases j with
          | zero => simp
          | succ j =>
            have := hall j (by simpa [List.length_cons] using hj)
            rw [ltInf_some] at this
            simp only [List.getD_cons_succ]
            simpa using of_decide_eq_false this
        · intro j hj; omega
      · refine Or.inr ⟨k + 1, by simpa [List.length_cons] using hk, by simpa [List.getD_cons_succ] using heq, ?_, ?_, ?_⟩
        · have hks : dist (rest.getD k dfltPair).2 eng < dist pr.2 eng := by
            have := hltk
            rw [ltInf_some] at this
            exact of_decide_eq_true this
          cases d0 with
          | none => simp [ltInf_none, List.getD_cons_succ]
          | some m =>
            have hd0 : dist pr.2 eng < m := by
              have := hlt
              rw [ltInf_some] at this
              exact of_decide_eq_true this
            simp only [List.getD_cons_succ, ltInf_some]
            exact decide_eq_true (lt_trans hks hd0)
        · intro j hj
          cases j with
          | zero =>
            have hks : dist (rest.getD k dfltPair).2 eng < dist pr.2 eng := by
              have := hltk
              rw [ltInf_some] at this
              exact of_decide_eq_true this
            simp only [List.getD_cons_succ, List.getD_cons_zero]
            exact le_of_lt hks
          | succ j =>
            simp only [List.getD_cons_succ]
            exact hmin j (by simpa [List.length_cons] using hj)
        · intro j hj
          cases j with
          | zero =>
            have hks : dist (rest.getD k dfltPair).2 eng < dist pr.2 eng := by
              have := hltk
              rw [ltInf_some] at this
              exact of_decide_eq_true this
            simpa [List.getD_cons_succ, List.getD_cons_zero] using hks
          | succ j =>
            simp only [List.getD_cons_succ]
            exact hfirst j (by omega)
    | false =>
      simp only [hlt, Bool.false_eq_true, if_false]
      rcases ih d0 r0 with ⟨heq, hall⟩ | ⟨k, hk, heq, hltk, hmin, hfirst⟩
      · refine Or.inl ⟨heq, ?_⟩
        intro j hj
        cases j with
        | zero => simpa using hlt
        | succ j =>
          simp only [List.getD_cons_succ]
          exact hall j (by simpa [List.length_cons] using hj)
      · have hd0m : ∃ m, d0 = some m ∧ ¬ dist pr.2 eng < m := by
          cases d0 with
          | none => rw [ltInf_none] at hlt; cases hlt
          | some m =>
            rw [ltInf_some] at hlt
            exact ⟨m, rfl, of_decide_eq_false hlt⟩
        obtain ⟨m, rfl, hm⟩ := hd0m
        have hkm : dist (rest.getD k dfltPair).2 eng < m := by
          have := hltk
          rw [ltInf_some] at this
          exact of_decide_eq_true this
        have hke : dist (rest.getD k dfltPair).2 eng < dist pr.2 eng :=
          lt_of_lt_of_le hkm (not_lt.mp hm)
        refine Or.inr ⟨k + 1, by simpa [List.length_cons] using hk,
          by simpa [List.getD_cons_succ] using heq,
          by simpa [List.getD_cons_succ, ltInf_some] using decide_eq_true hkm, ?_, ?_⟩
        · intro j hj
          cases j with
          | zero =>
            simp only [List.getD_cons_succ, List.getD_cons_zero]
            exact le_of_lt hke
          | succ j =>
            simp only [List.getD_cons_succ]
            exact hmin j (by simpa [List.length_cons] using hj)
        · intro j hj
          cases j with
          | zero =>
            simpa [List.getD_cons_succ, List.getD_cons_zero] using hke
          | succ j =>
            simp only [List.getD_cons_succ]
            exact hfirst j (by omega)

/-- From the initial `(np.inf, ·)` accumulator on a nonempty pair list, the
core loop returns the first minimum. -/
lemma pldFoldCore_firstmin (dist : List Char → Option (List Char) → ℕ)
    (eng : Option (List Char)) (pairs : List (List Char × List Char))
    (h : pairs ≠ []) :
    ∃ k, k < pairs.length
      ∧ pldFoldCore dist eng pairs (none, none)
          = (some (dist (pairs.getD k dfltPair).2 eng), some (pairs.getD k dfltPair).1)
      ∧ (∀ j, j < pairs.length →
          dist (pairs.getD k dfltPair).2 eng ≤ dist (pairs.getD j dfltPair).2 eng)
      ∧ (∀ j, j < k →
          dist (pairs.getD k dfltPair).2 eng < dist (pairs.getD j dfltPair).2 eng) := by
  rcases pldFoldCore_spec dist eng pairs none none with ⟨_, hall⟩ | ⟨k, hk, heq, _, hmin, hfirst⟩
  · exfalso
    have hlen : 0 < pairs.length := List.length_pos.mpr h
    have := hall 0 hlen
    rw [ltInf_none] at this
    cases this
  · exact ⟨k, hk, heq, hmin, hfirst⟩

lemma zip_ne_nil {α β : Type} {l₁ : List α} {l₂ : List β} (h₁ : l₁ ≠ []) (h₂ : l₂ ≠ []) :
    l₁.zip l₂ ≠ [] := by
  cases l₁ with
  | nil => exact absurd rfl h₁
  | cons a as =>
    cases l₂ with
    | nil => exact absurd rfl h₂
    | cons b bs => simp [List.zip_cons_cons]

lemma pldPairs_ne_nil (toks romToks : List (List Char)) :
    pldPairs toks romToks ≠ [] := by
  unfold pldPairs
  exact zip_ne_nil (by simp [pyPermutations_ne_nil])
    (by simp [pyPermutations_ne_nil])

/-- Every left component of a zipped permutation pair is a joined permutation
of the source tokens; joining good tokens is strip-fixed. -/
lemma pldPairs_fst_fixed {toks romToks : List (List Char)}
    (htoks : ∀ t ∈ toks, goodTok t) {pr : List Char × List Char}
    (hpr : pr ∈ pldPairs toks romToks) :
    pyStrip (pyStripComma pr.1) = pr.1 := by
  unfold pldPairs at hpr
  have hfst : pr.1 ∈ (pyPermutations toks).map joinSp :=
    (List.of_mem_zip (a := pr.1) (b := pr.2) (by simpa using hpr)).1
  obtain ⟨σ, hσ, hj⟩ := List.mem_map.mp hfst
  rw [← hj]
  apply strip_stripComma_joinSp
  intro t ht
  exact htoks t (((pyPermutations_iff σ toks).mp hσ).mem_iff.mp ht)

lemma pldProcessImmutable_skip (dist : List Char → Option (List Char) → ℕ)
    (lb ub : ℕ) (name : TransliteratedName) (rom : List Char)
    (h : ¬(lb ≤ (pldTokens name.text).length ∧ (pldTokens name.text).length ≤ ub)) :
    pldProcessImmutable dist lb ub name rom = name := by
  unfold pldProcessImmutable
  rw [if_pos]
  simp only [Bool.not_eq_true', Bool.and_eq_false_iff, decide_eq_false_iff_not]
  omega

lemma pldProcessInplace_skip (dist : List Char → Option (List Char) → ℕ)
    (lb ub : ℕ) (name : TransliteratedName) (rom : List Char)
    (h : ¬(lb ≤ (pldTokens name.text).length ∧ (pldTokens name.text).length ≤ ub)) :
    pldProcessInplace dist lb ub name rom = name := by
  unfold pldProcessInplace
  rw [if_pos]
  simp only [Bool.not_eq_true', Bool.and_eq_false_iff, decide_eq_false_iff_not]
  omega

lemma pldProcessImmutable_in (dist : List Char → Option (List Char) → ℕ)
    (lb ub : ℕ) (name : TransliteratedName) (rom : List Char)
    (h1 : lb ≤ (pldTokens name.text).length)
    (h2 : (pldTokens name.text).length ≤ ub) :
    pldProcessImmutable dist lb ub name rom =
      { text := pyStripComma
          (pldBestName (fun p => pyStrip (pyStripComma p)) dist name.englishText
            (pldPairs (pldTokens name.text) (pldTokens rom)) name.text),
        isUnchanged :=
          pldBestName (fun p => pyStrip (pyStripComma p)) dist name.englishText
            (pldPairs (pldTokens name.text) (pldTokens rom)) name.text == name.text,
        language := name.language,
        wikidataId := name.wikidataId,
        conllType := name.conllType,
        anomalous := name.anomalous,
        noiseSample := name.noiseSample,
        englishText := name.englishText,
        analyzeUnicode := true,
        alignment := none,
        origText := some name.text } := by
  unfold pldProcessImmutable
  rw [if_neg]
  simp [h1, h2]

lemma pldProcessInplace_in (dist : List Char → Option (List Char) → ℕ)
    (lb ub : ℕ) (name : TransliteratedName) (rom : List Char)
    (h1 : lb ≤ (pldTokens name.text).length)
    (h2 : (pldTokens name.text).length ≤ ub) :
    pldProcessInplace dist lb ub name rom =
      { name with
        text := pyStripComma
          (pldBestName (fun p => p) dist name.englishText
            (pldPairs (pldTokens name.text) (pldTokens rom)) name.text),
        isUnchanged :=
          pldBestName (fun p => p) dist name.englishText
            (pldPairs (pldTokens name.text) (pldTokens rom)) name.text == name.text,
        origText := some name.text } := by
  unfold pldProcessInplace
  rw [if_neg]
  simp [h1, h2]

/-- In either branch, the two per-name bodies agree on
`(text, is_unchanged, original_text)`: the immutable body records the winner
as `strip_comma(permutation).strip()`, but every candidate permutation is a
fixed point of that. -/
lemma pld_process_proj (dist : List Char → Option (List Char) → ℕ) (lb ub : ℕ)
    (name : TransliteratedName) (rom : List Char) :
    nameProj (pldProcessInplace dist lb ub name rom)
      = nameProj (pldProcessImmutable dist lb ub name rom) := by
  by_cases hb : lb ≤ (pldTokens name.text).length ∧ (pldTokens name.text).length ≤ ub
  · rw [pldProcessInplace_in dist lb ub name rom hb.1 hb.2,
      pldProcessImmutable_in dist lb ub name rom hb.1 hb.2]
    have hpne := pldPairs_ne_nil (pldTokens name.text) (pldTokens rom)
    obtain ⟨k, hk, heq, _, _⟩ :=
      pldFoldCore_firstmin dist name.englishText
        (pldPairs (pldTokens name.text) (pldTokens rom)) hpne
    have hmem : (pldPairs (pldTokens name.text) (pldTokens rom)).getD k dfltPair
        ∈ pldPairs (pldTokens name.text) (pldTokens rom) := by
      rw [List.getD_eq_getElem _ _ hk]
      exact List.getElem_mem hk
    have hfix := pldPairs_fst_fixed (pldTokens_good name.text) hmem
    have hbI :
        pldBestName (fun p => pyStrip (pyStripComma p)) dist name.englishText
          (pldPairs (pldTokens name.text) (pldTokens rom)) name.text
        = ((pldPairs (pldTokens name.text) (pldTokens rom)).getD k dfltPair).1 := by
      rw [pldBestName_eq_core, heq]
      exact hfix
    have hbP :
        pldBestName (fun p => p) dist name.englishText
          (pldPairs (pldTokens name.text) (pldTokens rom)) name.text
        = ((pldPairs (pldTokens name.text) (pldTokens rom)).getD k dfltPair).1 := by
      rw [pldBestName_eq_core, heq]
    rw [hbI, hbP]
    rfl
  · rw [pldProcessInplace_skip dist lb ub name rom hb,
      pldProcessImmutable_skip dist lb ub name rom hb]

/-- C8: the two mutation modes are equivalent — for the generic
`NameProcessor` wrapper under every `process`/`debug_mode` configuration, and
for `PermuteLowestDistance` under every distance function, bounds and
(count-preserving, as the romanizer asserts) romanization oracle, the in-place
and copy-producing runs agree name-for-name on
`(text, is_unchanged, original_text)`. -/
theorem c8_mutation_mode_equivalence :
    (∀ (process : List Char → List Char) (debugMode : Bool)
        (names : List TransliteratedName),
        (npCallInplace process debugMode names).map nameProj
          = (npCallImmutable process debugMode names).map nameProj)
    ∧ (∀ (dist : List Char → Option (List Char) → ℕ) (lb ub : ℕ)
        (romanize : List (List Char) → List (List Char))
        (names : List TransliteratedName),
        (romanize (names.map (fun n => n.text))).length = names.length →
        (pldCallInplace dist lb ub romanize names).map nameProj
          = (pldCallImmutable dist lb ub romanize names).map nameProj) := by
  constructor
  · intro process debugMode names
    unfold npCallInplace npCallImmutable
    rw [List.map_map, List.map_map]
    apply List.map_congr_left
    intro n _
    rfl
  · intro dist lb ub romanize names hlen
    unfold pldCallInplace pldCallImmutable
    dsimp only
    have hzlen : (names.zip (romanize (names.map (fun n => n.text)))).length
        = names.length := by
      rw [List.length_zip, hlen]
      exact min_self _
    rw [hzlen, List.drop_length, List.append_nil, List.map_map, List.map_map]
    apply List.map_congr_left
    intro pr _
    exact pld_process_proj dist lb ub pr.1 pr.2

/-- Witness for C8's permuter part at a concrete batch with the identity
romanizer. -/
theorem c8_mutation_mode_equivalence_witness :
    (((fun xs => xs : List (List Char) → List (List Char))
        ([nameDoeJohn, nameAB].map (fun n => n.text))).length
      = ([nameDoeJohn, nameAB] : List TransliteratedName).length)
    ∧ (pldCallInplace levDist 2 4 (fun xs => xs) [nameDoeJohn, nameAB]).map nameProj
        = (pldCallImmutable levDist 2 4 (fun xs => xs) [nameDoeJohn, nameAB]).map nameProj :=
  ⟨by decide,
    c8_mutation_mode_equivalence.2 levDist 2 4 (fun xs => xs) [nameDoeJohn, nameAB]
      (by decide)⟩

lemma zip_getElem?_of {α β : Type} (l₁ : List α) (l₂ : List β) :
    ∀ (i : ℕ) (a : α), l₁[i]? = some a → l₁.length ≤ l₂.length →
      ∃ b, (l₁.zip l₂)[i]? = some (a, b) := by
  induction l₁ generalizing l₂ with
  | nil => intro i a h _; simp at h
  | cons x xs ih =>
    intro i a h hlen
    cases l₂ with
    | nil => simp at hlen
    | cons y ys =>
      cases i with
      | zero =>
        simp only [List.getElem?_cons_zero, Option.some.injEq] at h
        exact ⟨y, by simp [List.zip_cons_cons, h]⟩
      | succ n =>
        simp only [List.getElem?_cons_succ] at h
        obtain ⟨b, hb⟩ := ih ys n a h (by simpa [List.length_cons] using hlen)
        exact ⟨b, by simpa [List.zip_cons_cons, List.getElem?_cons_succ] using hb⟩

/-- C9: a name whose token count (of the comma-stripped, whitespace-split
text) falls outside the configured inclusive bounds passes through
`PermuteLowestDistance` untouched — the output at its position is the very
same name, with the same `text`, `original_text` and `is_unchanged` — in both
mutation modes. -/
theorem c9_out_of_bounds_untouched :
    ∀ (dist : List Char → Option (List Char) → ℕ) (lb ub : ℕ)
      (romanize : List (List Char) → List (List Char))
      (names : List TransliteratedName) (i : ℕ) (n : TransliteratedName),
      (romanize (names.map (fun m => m.text))).length = names.length →
      names[i]? = some n →
      ¬(lb ≤ (pldTokens n.text).length ∧ (pldTokens n.text).length ≤ ub) →
      (pldCallImmutable dist lb ub romanize names)[i]? = some n
      ∧ (pldCallInplace dist lb ub romanize names)[i]? = some n := by
  intro dist lb ub romanize names i n hlen hi hb
  obtain ⟨r, hzip⟩ := zip_getElem?_of names (romanize (names.map (fun m => m.text)))
    i n hi (le_of_eq hlen.symm)
  have hzlen : (names.zip (romanize (names.map (fun m => m.text)))).length
      = names.length := by
    rw [List.length_zip, hlen]
    exact min_self _
  have hilt : i < names.length := by
    rcases List.getElem?_eq_some.mp hi with ⟨hlt, _⟩
    exact hlt
  constructor
  · unfold pldCallImmutable
    dsimp only
    rw [List.getElem?_map, hzip, Option.map_some']
    rw [pldProcessImmutable_skip dist lb ub n r hb]
  · unfold pldCallInplace
    dsimp only
    rw [List.getElem?_append,
      if_pos (show i < (List.map (fun pr => pldProcessInplace dist lb ub pr.1 pr.2)
        (names.zip (romanize (List.map (fun m => m.text) names)))).length by
          rw [List.length_map, hzlen]; exact hilt)]
    rw [List.getElem?_map, hzip, Option.map_some']
    rw [pldProcessInplace_skip dist lb ub n r hb]

/-- Witness for C9: a one-token name and a five-token name under the default
bounds [2, 4] with the identity romanizer. -/
theorem c9_out_of_bounds_untouched_witness :
    ((pldCallImmutable levDist 2 4 (fun xs => xs) [nameOneTok, nameFiveTok])[0]?
        = some nameOneTok
      ∧ (pldCallInplace levDist 2 4 (fun xs => xs) [nameOneTok, nameFiveTok])[0]?
        = some nameOneTok)
    ∧ ((pldCallImmutable levDist 2 4 (fun xs => xs) [nameOneTok, nameFiveTok])[1]?
        = some nameFiveTok
      ∧ (pldCallInplace levDist 2 4 (fun xs => xs) [nameOneTok, nameFiveTok])[1]?
        = some nameFiveTok) :=
  ⟨c9_out_of_bounds_untouched levDist 2 4 (fun xs => xs) [nameOneTok, nameFiveTok]
      0 nameOneTok (by decide) (by decide) (by decide),
    c9_out_of_bounds_untouched levDist 2 4 (fun xs => xs) [nameOneTok, nameFiveTok]
      1 nameFiveTok (by decide) (by decide) (by decide)⟩

/-- Left components of permutation pairs are also fixed points of
`strip_comma` alone (they contain no commas at all). -/
lemma pldPairs_fst_comma_fixed {toks romToks : List (List Char)}
    (htoks : ∀ t ∈ toks, goodTok t) {pr : List Char × List Char}
    (hpr : pr ∈ pldPairs toks romToks) :
    pyStripComma pr.1 = pr.1 := by
  unfold pldPairs at hpr
  have hfst : pr.1 ∈ (pyPermutations toks).map joinSp :=
    (List.of_mem_zip (a := pr.1) (b := pr.2) (by simpa using hpr)).1
  obtain ⟨σ, hσ, hj⟩ := List.mem_map.mp hfst
  rw [← hj]
  apply stripP_joinSp _ (fun c _ hc => by simp [hc])
  intro t ht
  exact htoks t (((pyPermutations_iff σ toks).mp hσ).mem_iff.mp ht)

/-- C4: within the token-count bounds, `PermuteLowestDistance` enumerates
exactly the token permutations (in `itertools` order), pairs the original and
romanized token lists under the *same* index permutation at every position
(lockstep), scores each pair by the configured distance between the romanized
permutation and `english_reference`, and writes back the earliest
minimal-distance original-token permutation of the comma-stripped text (with
`is_unchanged` telling whether it equals the current text); on
`text="Doe John"`, `english_reference="John Doe"` with the identity romanizer
and the default edit distance this yields `"John Doe"` and
`is_unchanged=false` in both modes. -/
theorem c4_edit_distance_permuter :
    (∀ (σ l : List (List Char)), σ ∈ pyPermutations l ↔ σ.Perm l)
    ∧ (∀ (n : ℕ) (f g : Fin n → List Char),
        pldPairs ((List.finRange n).map f) ((List.finRange n).map g)
          = (pyPermutations (List.finRange n)).map
              (fun σ => (joinSp (σ.map f), joinSp (σ.map g))))
    ∧ (∀ (dist : List Char → Option (List Char) → ℕ) (lb ub : ℕ)
        (name : TransliteratedName) (rom : List Char),
        lb ≤ (pldTokens name.text).length → (pldTokens name.text).length ≤ ub →
        ∃ k, k < (pldPairs (pldTokens name.text) (pldTokens rom)).length
          ∧ (∀ j, j < (pldPairs (pldTokens name.text) (pldTokens rom)).length →
              dist ((pldPairs (pldTokens name.text) (pldTokens rom)).getD k dfltPair).2
                  name.englishText
                ≤ dist ((pldPairs (pldTokens name.text) (pldTokens rom)).getD j dfltPair).2
                  name.englishText)
          ∧ (∀ j, j < k →
              dist ((pldPairs (pldTokens name.text) (pldTokens rom)).getD k dfltPair).2
                  name.englishText
                < dist ((pldPairs (pldTokens name.text) (pldTokens rom)).getD j dfltPair).2
                  name.englishText)
          ∧ (pldProcessImmutable dist lb ub name rom).text
              = ((pldPairs (pldTokens name.text) (pldTokens rom)).getD k dfltPair).1
          ∧ (pldProcessImmutable dist lb ub name rom).isUnchanged
              = (((pldPairs (pldTokens name.text) (pldTokens rom)).getD k dfltPair).1
                  == name.text)
          ∧ (pldProcessInplace dist lb ub name rom).text
              = ((pldPairs (pldTokens name.text) (pldTokens rom)).getD k dfltPair).1
          ∧ (pldProcessInplace dist lb ub name rom).isUnchanged
              = (((pldPairs (pldTokens name.text) (pldTokens rom)).getD k dfltPair).1
                  == name.text))
    ∧ (pldCallImmutable levDist 2 4 (fun xs => xs) [nameDoeJohn]).map nameProj
        = [(chars "John Doe", false, chars "Doe John")]
    ∧ (pldCallInplace levDist 2 4 (fun xs => xs) [nameDoeJohn]).map nameProj
        = [(chars "John Doe", false, chars "Doe John")] := by
  refine ⟨fun σ l => pyPermutations_iff σ l, ?_, ?_, by decide, by decide⟩
  · intro n f g
    unfold pldPairs
    rw [pyPermutations_map f, pyPermutations_map g, List.map_map, List.map_map,
      List.zip_map']
    apply List.map_congr_left
    intro σ _
    simp
  · intro dist lb ub name rom h1 h2
    have hpne := pldPairs_ne_nil (pldTokens name.text) (pldTokens rom)
    obtain ⟨k, hk, heq, hmin, hfirst⟩ :=
      pldFoldCore_firstmin dist name.englishText
        (pldPairs (pldTokens name.text) (pldTokens rom)) hpne
    have hmem : (pldPairs (pldTokens name.text) (pldTokens rom)).getD k dfltPair
        ∈ pldPairs (pldTokens name.text) (pldTokens rom) := by
      rw [List.getD_eq_getElem _ _ hk]
      exact List.getElem_mem hk
    have hfix := pldPairs_fst_fixed (pldTokens_good name.text) hmem
    have hcomma := pldPairs_fst_comma_fixed (pldTokens_good name.text) hmem
    have hbI :
        pldBestName (fun p => pyStrip (pyStripComma p)) dist name.englishText
          (pldPairs (pldTokens name.text) (pldTokens rom)) name.text
        = ((pldPairs (pldTokens name.text) (pldTokens rom)).getD k dfltPair).1 := by
      rw [pldBestName_eq_core, heq]
      exact hfix
    have hbP :
        pldBestName (fun p => p) dist name.englishText
          (pldPairs (pldTokens name.text) (pldTokens rom)) name.text
        = ((pldPairs (pldTokens name.text) (pldTokens rom)).getD k dfltPair).1 := by
      rw [pldBestName_eq_core, heq]
    refine ⟨k, hk, hmin, hfirst, ?_, ?_, ?_, ?_⟩
    · rw [pldProcessImmutable_in dist lb ub name rom h1 h2]
      show pyStripComma (pldBestName _ dist name.englishText _ name.text) = _
      rw [hbI, hcomma]
    · rw [pldProcessImmutable_in dist lb ub name rom h1 h2]
      show (pldBestName _ dist name.englishText _ name.text == name.text) = _
      rw [hbI]
    · rw [pldProcessInplace_in dist lb ub name rom h1 h2]
      show pyStripComma (pldBestName _ dist name.englishText _ name.text) = _
      rw [hbP, hcomma]
    · rw [pldProcessInplace_in dist lb ub name rom h1 h2]
      show (pldBestName _ dist name.englishText _ name.text == name.text) = _
      rw [hbP]

/-- Witness for C4's selection clause at the spec example (token count 2 lies
within the default bounds [2, 4]). -/
theorem c4_edit_distance_permuter_witness :
    (2 ≤ (pldTokens nameDoeJohn.text).length ∧ (pldTokens nameDoeJohn.text).length ≤ 4)
    ∧ ∃ k, k < (pldPairs (pldTokens nameDoeJohn.text) (pldTokens (chars "Doe John"))).length
      ∧ (∀ j, j < (pldPairs (pldTokens nameDoeJohn.text)
            (pldTokens (chars "Doe John"))).length →
          levDist ((pldPairs (pldTokens nameDoeJohn.text)
              (pldTokens (chars "Doe John"))).getD k dfltPair).2 nameDoeJohn.englishText
            ≤ levDist ((pldPairs (pldTokens nameDoeJohn.text)
              (pldTokens (chars "Doe John"))).getD j dfltPair).2 nameDoeJohn.englishText)
      ∧ (∀ j, j < k →
          levDist ((pldPairs (pldTokens nameDoeJohn.text)
              (pldTokens (chars "Doe John"))).getD k dfltPair).2 nameDoeJohn.englishText
            < levDist ((pldPairs (pldTokens nameDoeJohn.text)
              (pldTokens (chars "Doe John"))).getD j dfltPair).2 nameDoeJohn.englishText)
      ∧ (pldProcessImmutable levDist 2 4 nameDoeJohn (chars "Doe John")).text
          = ((pldPairs (pldTokens nameDoeJohn.text)
              (pldTokens (chars "Doe John"))).getD k dfltPair).1
      ∧ (pldProcessImmutable levDist 2 4 nameDoeJohn (chars "Doe John")).isUnchanged
          = (((pldPairs (pldTokens nameDoeJohn.text)
              (pldTokens (chars "Doe John"))).getD k dfltPair).1 == nameDoeJohn.text)
      ∧ (pldProcessInplace levDist 2 4 nameDoeJohn (chars "Doe John")).text
          = ((pldPairs (pldTokens nameDoeJohn.text)
              (pldTokens (chars "Doe John"))).getD k dfltPair).1
      ∧ (pldProcessInplace levDist 2 4 nameDoeJohn (chars "Doe John")).isUnchanged
          = (((pldPairs (pldTokens nameDoeJohn.text)
              (pldTokens (chars "Doe John"))).getD k dfltPair).1 == nameDoeJohn.text) :=
  ⟨⟨by decide, by decide⟩,
    c4_edit_distance_permuter.2.2.1 levDist 2 4 nameDoeJohn (chars "Doe John")
      (by decide) (by decide)⟩

/-- C10: `CorpusStatistics` construction divides the summed cross-alignment
count by the number of names with no zero guard: every nonempty collection
yields statistics whose mean is exactly `total_cross_alignments /
total_names` (with `total_names` the collection's size), and the empty
collection raises `ZeroDivisionError` — so the error branch is unreachable
exactly under the nonemptiness precondition. -/
theorem c10_corpus_statistics_division :
    (∀ (names : List TransliteratedName), names ≠ [] →
        ∃ st, corpusStatistics names = some st
          ∧ st.meanCrossAlignments
              = (st.totalCrossAlignments : ℚ) / (st.totalNames : ℚ)
          ∧ st.totalNames = names.length
          ∧ st.totalCrossAlignments
              = names.foldl
                  (fun (acc : ℤ) n =>
                    match n.alignment with
                    | some a => acc + a.nCross
                    | none => acc) 0)
    ∧ corpusStatistics [] = none := by
  constructor
  · intro names hne
    have hlen : names.length ≠ 0 := by
      intro h0
      exact hne (List.length_eq_zero.mp h0)
    have hst : corpusStatistics names = some
        { meanCrossAlignments :=
            ((names.foldl
              (fun (acc : ℤ) n =>
                match n.alignment with
                | some a => acc + a.nCross
                | none => acc) 0 : ℤ) : ℚ) / (names.length : ℚ),
          totalCrossAlignments :=
            names.foldl
              (fun (acc : ℤ) n =>
                match n.alignment with
                | some a => acc + a.nCross
                | none => acc) 0,
          totalPermuted := (names.filter (fun n => !n.isUnchanged)).length,
          totalSurviving := (names.filter (fun n => n.isUnchanged)).length,
          totalNames := names.length } := by
      unfold corpusStatistics
      dsimp only
      rw [if_neg hlen]
    exact ⟨_, hst, rfl, rfl, rfl⟩
  · rfl

/-- Witness for C10 at a two-name collection with one attached alignment. -/
theorem c10_corpus_statistics_division_witness :
    (([nameAligned, nameT] : List TransliteratedName) ≠ [])
    ∧ ∃ st, corpusStatistics [nameAligned, nameT] = some st
        ∧ st.meanCrossAlignments = (st.totalCrossAlignments : ℚ) / (st.totalNames : ℚ)
        ∧ st.totalNames = ([nameAligned, nameT] : List TransliteratedName).length
        ∧ st.totalCrossAlignments
            = ([nameAligned, nameT] : List TransliteratedName).foldl
                (fun (acc : ℤ) n =>
                  match n.alignment with
                  | some a => acc + a.nCross
                  | none => acc) 0 :=
  ⟨by decide, c10_corpus_statistics_division.1 [nameAligned, nameT] (by decide)⟩
